import Mathlib

/-!
Verification of the natural-language specification of `src/util.py`
(`nn-decoding` repository) against a shallow embedding of its code.

Numbers are modelled by `ℚ` (exact arithmetic standing in for numpy
floats); `np.sqrt` (inside `np.linalg.norm`) is modelled by `Rat.sqrt`,
which is exact whenever the radicand is a perfect rational square — all
concrete inputs used in counterexamples and witnesses keep every radicand
a perfect square, so the model and the code agree on them.
`np.argsort` is modelled as a stable sort of indices (ties broken by
index).  Python exceptions are modelled by an `Except PyErr` result, and
the in-place mutation of `Y_pred` inside `eval_ranks` is modelled by
explicit state passing: the function also returns the final contents of
the `Y_pred` buffer.
-/

namespace NnDecoding

attribute [local semireducible] Rat.mul Rat.add Rat.sub Rat.inv

/-- Python exceptions that the modelled code can raise. -/
inductive PyErr : Type
  | assertionError : PyErr
  | indexError : PyErr
  | keyError : PyErr
  | valueError : String → PyErr
deriving DecidableEq

instance exceptDecEq {ε α : Type} [DecidableEq ε] [DecidableEq α] :
    DecidableEq (Except ε α)
  | .error a, .error b =>
    if h : a = b then .isTrue (by rw [h]) else .isFalse (fun hh => h (by injection hh))
  | .error _, .ok _ => .isFalse (fun hh => Except.noConfusion hh)
  | .ok _, .error _ => .isFalse (fun hh => Except.noConfusion hh)
  | .ok a, .ok b =>
    if h : a = b then .isTrue (by rw [h]) else .isFalse (fun hh => h (by injection hh))

/-- Model of `np.dot` on two vectors (row of `Y_pred` times row of
`encodings`): sum of pointwise products. -/
def dot (u v : List ℚ) : ℚ := (List.zipWith (fun a b => a * b) u v).sum

/-- Column sums of a (rectangular) matrix, the first step of
`Y_pred.mean(axis=0)`. -/
def colSums (Y : List (List ℚ)) : List ℚ :=
  Y.foldr (fun r acc => List.zipWith (fun a b => a + b) r acc)
    (List.replicate (Y.headD []).length 0)

/-- Model of the in-place `Y_pred -= Y_pred.mean(axis=0)` from
`eval_ranks` (line 138 of `util.py`). -/
def centerCols (Y : List (List ℚ)) : List (List ℚ) :=
  let m := (colSums Y).map (fun x => x / (Y.length : ℚ))
  Y.map (fun r => List.zipWith (fun a b => a - b) r m)

/-- Floor square root of a natural number: the number of positive `k`
with `k * k ≤ n` (all such `k` lie in `[1, n]`). -/
def natSqrt (n : ℕ) : ℕ :=
  (List.range (n + 1)).countP (fun k => decide (0 < k) && decide (k * k ≤ n))

/-- Model of `np.sqrt` on a nonnegative rational `q`: the quotient of the
floor square roots of numerator and denominator.  This is exact exactly
when `q` is a square of a rational; every concrete input used in a
counterexample or witness below keeps each radicand a perfect square, so
the model agrees with floating-point `np.sqrt` there, and no universal
theorem in this file depends on the value of `ratSqrt` elsewhere. -/
def ratSqrt (q : ℚ) : ℚ := (natSqrt q.num.toNat : ℚ) / (natSqrt q.den : ℚ)

/-- Model of the in-place
`Y_pred /= np.linalg.norm(Y_pred, axis=1, keepdims=True)` from
`eval_ranks` (line 139 of `util.py`): each row is divided by the square
root of its dot product with itself. -/
def normRows (Y : List (List ℚ)) : List (List ℚ) :=
  Y.map (fun r => r.map (fun x => x / ratSqrt (dot r r)))

/-- Entry `(i, j)` of `similarities = np.dot(Y_pred, encodings.T)`
(line 145 of `util.py`). -/
def simOf (Y encs : List (List ℚ)) (i j : ℕ) : ℚ :=
  dot (Y.getD i []) (encs.getD j [])

/-- Comparison used to model `np.argsort` on the key sequence `f`:
ascending by value, ties broken by index (a stable argsort). -/
def keyLe {α : Type} [LinearOrder α] (f : ℕ → α) (i j : ℕ) : Prop :=
  f i < f j ∨ (f i = f j ∧ i ≤ j)

/-- Strict version of `keyLe`. -/
def keyLt {α : Type} [LinearOrder α] (f : ℕ → α) (i j : ℕ) : Prop :=
  f i < f j ∨ (f i = f j ∧ i < j)

instance keyLe.instDecidable {α : Type} [LinearOrder α] (f : ℕ → α) :
    DecidableRel (keyLe f) := fun i j => by unfold keyLe; infer_instance

instance keyLt.instDecidable {α : Type} [LinearOrder α] (f : ℕ → α) :
    DecidableRel (keyLt f) := fun i j => by unfold keyLt; infer_instance

instance keyLe.instIsTotal {α : Type} [LinearOrder α] (f : ℕ → α) :
    IsTotal ℕ (keyLe f) := by
  constructor
  intro i j
  rcases lt_trichotomy (f i) (f j) with h | h | h
  · exact Or.inl (Or.inl h)
  · rcases Nat.le_total i j with hij | hij
    · exact Or.inl (Or.inr ⟨h, hij⟩)
    · exact Or.inr (Or.inr ⟨h.symm, hij⟩)
  · exact Or.inr (Or.inl h)

instance keyLe.instIsTrans {α : Type} [LinearOrder α] (f : ℕ → α) :
    IsTrans ℕ (keyLe f) := by
  constructor
  intro i j k hij hjk
  rcases hij with h1 | ⟨h1, h1'⟩
  · rcases hjk with h2 | ⟨h2, _⟩
    · exact Or.inl (h1.trans h2)
    · exact Or.inl (h2 ▸ h1)
  · rcases hjk with h2 | ⟨h2, h2'⟩
    · exact Or.inl (h1 ▸ h2)
    · exact Or.inr ⟨h1.trans h2, h1'.trans h2'⟩

/-- Model of `np.argsort` applied to the length-`n` sequence of keys
`f 0, …, f (n-1)`: the indices `0, …, n-1` sorted ascending by key, ties
broken by original index. -/
def argsort {α : Type} [LinearOrder α] (f : ℕ → α) (n : ℕ) : List ℕ :=
  List.insertionSort (keyLe f) (List.range n)

/-- One row of the rank computation of `eval_ranks` (lines 148-149 of
`util.py`): `orders = (-similarities).argsort(axis=1)` followed by
`ranks = orders.argsort(axis=1)`. -/
def rankRow (sim : ℕ → ℚ) (M : ℕ) : List ℕ :=
  let orders := argsort (fun j => -(sim j)) M
  argsort (fun j => orders.getD j 0) M

/-- Model of `eval_ranks` (lines 113-153 of `util.py`).  The result is
`(ranks, rank_of_correct, Y_final)` where `Y_final` is the final contents
of the caller's `Y_pred` buffer (the code mutates it in place when
`encodings_normed` is true).  A failing `assert` is `AssertionError`; an
out-of-range entry of `idxs` in `ranks[np.arange(len(idxs)), idxs]` is
`IndexError`. -/
def eval_ranks (Y_pred : List (List ℚ)) (idxs : List ℕ)
    (encodings : List (List ℚ)) (encodings_normed : Bool) :
    Except PyErr (List (List ℕ) × List ℕ × List (List ℚ)) :=
  if Y_pred.length = idxs.length then
    let Y := if encodings_normed then normRows (centerCols Y_pred) else Y_pred
    let M := encodings.length
    let ranks := (List.range Y_pred.length).map (fun i => rankRow (simOf Y encodings i) M)
    if idxs.any (fun ix => M ≤ ix) then .error .indexError
    else .ok (ranks, List.zipWith (fun row ix => row.getD ix 0) ranks idxs, Y)
  else .error .assertionError

/-- Python regex word character (`\w`, ASCII): letter, digit or underscore. -/
def isWordChar (c : Char) : Bool := c.isAlphanum || c = '_'

/-- Strip the literal `lit` from the front of `l`, character by character. -/
def stripLit : List Char → List Char → Option (List Char)
  | [], l => some l
  | _ :: _, [] => none
  | c :: cs, d :: ds => if d = c then stripLit cs ds else none

/-- Take a maximal nonempty run of characters satisfying `p` from the
front of `l` (the semantics of a greedy `p+` group). -/
def peelRun (p : Char → Bool) (l : List Char) : Option (List Char × List Char) :=
  let w := l.takeWhile p
  if w.isEmpty then none else some (w, l.dropWhile p)

/-- Consume one expected character from the front of `l`. -/
def peelChar (c : Char) : List Char → Option (List Char)
  | [] => none
  | d :: rest => if d = c then some rest else none

/-- Model of `decoder_re.findall(name)` for the end-anchored pattern
`\.(\w+)-run(\d+)-(\d+)-([\w\d]+)<sfx>$` of `load_decoding_perfs`
(`sfx = ".csv"`, line 76 of `util.py`) and `load_decoding_preds`
(`sfx = ".pred.npy"`, line 100).  Because the pattern is anchored at the
end of the name and each group's character class excludes the character
delimiting it on the left (`\w` contains no `-` or `.`, `\d` no `-` or
`n`), the pattern has at most one match in any name, and that match is
obtained deterministically by reading the name from its end; `none`
models an empty `findall` list, in which case `findall(name)[0]` raises
`IndexError`.  Groups are returned as `(model, run, step, subject)`. -/
def decoderParse (sfx : String) (name : String) :
    Option (String × String × String × String) := do
  let r1 ← stripLit sfx.data.reverse name.data.reverse
  let (subjR, r2) ← peelRun isWordChar r1
  let r3 ← peelChar '-' r2
  let (sR, r4) ← peelRun Char.isDigit r3
  let r5 ← peelChar '-' r4
  let (rR, r6) ← peelRun Char.isDigit r5
  let r7 ← stripLit ['n', 'u', 'r', '-'] r6
  let (mR, r8) ← peelRun isWordChar r7
  let _ ← peelChar '.' r8
  pure (⟨mR.reverse⟩, ⟨rR.reverse⟩, ⟨sR.reverse⟩, ⟨subjR.reverse⟩)

/-- Model of Python `int(s)` on a string of decimal digits. -/
def strToNat (s : String) : ℕ :=
  s.data.foldl (fun a c => 10 * a + (c.toNat - 48)) 0

/-- Model of a Python dict assignment `d[k] = v`: replace the value at an
existing key, otherwise append (insertion order is preserved). -/
def dictInsert {κ ν : Type} [DecidableEq κ] (d : List (κ × ν)) (k : κ) (v : ν) :
    List (κ × ν) :=
  if d.any (fun kv => decide (kv.1 = k)) then
    d.map (fun kv => if kv.1 = k then (k, v) else kv)
  else d ++ [(k, v)]

/-- Index key `(model, run, step, subject)` parsed from a result filename. -/
abbrev DecoderKey : Type := String × ℕ × ℕ × String

def csvSfx : String := ".csv"

/-- The literal `"."` of the filename grammar. -/
def dotS : String := ⟨['.']⟩

/-- The literal `"-run"` of the filename grammar. -/
def runS : String := ⟨['-', 'r', 'u', 'n']⟩

/-- The literal `"-"` of the filename grammar. -/
def dashS : String := ⟨['-']⟩

def npySfx : String := ".pred.npy"

def noCsvMsg : String := "No valid csv outputs found."

def noNpyMsg : String := "No valid npy pred files found."

/-- Shared loop of `load_decoding_perfs` / `load_decoding_preds`: fold in
glob order over the matched files, parse each name with the decoder regex
(an unmatched name raises `IndexError` through `findall(name)[0]`), and
assign the file's contents into the results dict under the key
`(model, int(run), int(step), subject)`. -/
def collectResults {ν : Type} (sfx : String) :
    List (String × ν) → List (DecoderKey × ν) → Except PyErr (List (DecoderKey × ν))
  | [], acc => .ok acc
  | (name, content) :: rest, acc =>
    match decoderParse sfx name with
    | none => .error .indexError
    | some (m, r, s, subj) =>
      collectResults sfx rest (dictInsert acc (m, strToNat r, strToNat s, subj) content)

/-- Model of `load_decoding_perfs` (lines 68-91 of `util.py`).  A file is
the pair of its glob-matched name and its parsed CSV rows (the
`(mse, r2)` columns selected by `pd.read_csv(usecols=...)`).  The result
models the concatenated DataFrame after `droplevel(-1)`: one output row
per CSV row, keyed by the `(model, run, step, subject)` tuple parsed from
the filename.  An empty results dict raises
`ValueError("No valid csv outputs found.")`. -/
def load_decoding_perfs (files : List (String × List (ℚ × ℚ))) :
    Except PyErr (List (DecoderKey × (ℚ × ℚ))) := do
  let results ← collectResults csvSfx files []
  if results.isEmpty then .error (.valueError noCsvMsg)
  else pure (results.flatMap (fun kv => kv.2.map (fun row => (kv.1, row))))

/-- Model of `load_decoding_preds` (lines 94-110 of `util.py`): like
`load_decoding_perfs` but over `*.pred.npy` files whose contents are
prediction matrices, returning the dict itself.  An empty dict raises
`ValueError("No valid npy pred files found.")`. -/
def load_decoding_preds (files : List (String × List (List ℚ))) :
    Except PyErr (List (DecoderKey × List (List ℚ))) := do
  let results ← collectResults npySfx files []
  if results.isEmpty then .error (.valueError noNpyMsg)
  else pure results

/-- Name matches the glob pattern `*<sfx>` (models `Path.glob` with the
empty `glob_prefix`). -/
def globMatch (sfx : String) (name : String) : Bool :=
  (stripLit sfx.data.reverse name.data.reverse).isSome

/-- Width (`shape[1]`) of a matrix. -/
def matWidth (X : List (List ℚ)) : ℕ := (X.headD []).length

/-- PCA projection step of `load_encodings` (lines 35-44 of `util.py`).
`pca` models `fun k X => PCA(k).fit(X).transform(X)` from sklearn, which
is outside the repository; theorems about this step assume only sklearn's
documented contract that the transform of a fitted `PCA(k)` has `k`
columns.  The boolean records whether the warning branch
(`shape[1] < project`) was taken, in which case the data is returned
unchanged. -/
def encodingsProject (pca : ℕ → List (List ℚ) → List (List ℚ))
    (project : Option ℕ) (X : List (List ℚ)) : List (List ℚ) × Bool :=
  match project with
  | none => (X, false)
  | some k => if matWidth X < k then (X, true) else (pca k X, false)

/-- PCA projection step of `load_brain_data` (lines 55-63 of `util.py`),
translated separately from its own lines. -/
def brainProject (pca : ℕ → List (List ℚ) → List (List ℚ))
    (project : Option ℕ) (X : List (List ℚ)) : List (List ℚ) × Bool :=
  match project with
  | none => (X, false)
  | some k => if matWidth X < k then (X, true) else (pca k X, false)

/-- Model of `np.concatenate(ms, axis=1)` for matrices with equal row
counts: rows are concatenated positionwise. -/
def concatAxis1 : List (List (List ℚ)) → List (List ℚ)
  | [] => []
  | m :: ms => ms.foldl (fun acc m2 => List.zipWith (fun a b => a ++ b) acc m2) m

/-- Model of `load_encodings` (lines 29-49 of `util.py`): each loaded
encodings file (given as its `np.load`ed matrix) is optionally
PCA-projected, and the results are concatenated along axis 1. -/
def load_encodings (pca : ℕ → List (List ℚ) → List (List ℚ))
    (files : List (List (List ℚ))) (project : Option ℕ) : List (List ℚ) :=
  concatAxis1 (files.map (fun X => (encodingsProject pca project X).1))

/-- Model of `load_brain_data` (lines 52-65 of `util.py`): the
`examples` matrix of the MATLAB file, optionally PCA-projected. -/
def load_brain_data (pca : ℕ → List (List ℚ) → List (List ℚ))
    (examples : List (List ℚ)) (project : Option ℕ) : List (List ℚ) :=
  (brainProject pca project examples).1

/-- Model of `itertools.combinations(keys, 2)`. -/
def combos {α : Type} : List α → List (α × α)
  | [] => []
  | x :: xs => xs.map (fun y => (x, y)) ++ combos xs

/-- Association-list lookup; a missing key raises `KeyError` in Python. -/
def lookupKey {α ν : Type} [DecidableEq α] : List (α × ν) → α → Option ν
  | [], _ => none
  | (k, v) :: rest, a => if k = a then some v else lookupKey rest a

/-- Model of `m1_preds.join(m2_preds["rank"], rsuffix="_m2")` in
`wilcoxon_rank_preds`: the two DataFrames are aligned on their (sorted,
matching) integer index, so rows pair up positionwise; a joined row is
`(subject, rank, rank_m2)`. -/
def joinRanks {α : Type} (m1 m2 : List (α × ℚ)) : List (α × ℚ × ℚ) :=
  List.zipWith (fun a b => (a.1, a.2, b.2)) m1 m2

/-- Group keys of `groupby("subject")`: the distinct subjects, in sorted
order as pandas produces them. -/
def groupKeys {α : Type} [LinearOrder α] (rows : List (α × ℚ × ℚ)) : List α :=
  List.insertionSort (fun a b => a ≤ b) (rows.map (fun r => r.1)).dedup

/-- Per-pair body of `wilcoxon_rank_preds` (lines 171-174 of `util.py`):
group the joined rows by subject and apply `st.wilcoxon` (modelled by the
function parameter `wil`, scipy being outside the repository) to the two
rank columns of each group, giving `(w_stat, p_val)` per subject. -/
def pairTest {α : Type} [LinearOrder α] (wil : List ℚ → List ℚ → ℚ × ℚ)
    (joined : List (α × ℚ × ℚ)) : List (α × ℚ × ℚ) :=
  (groupKeys joined).map (fun s =>
    let xs := joined.filter (fun r => decide (r.1 = s))
    let wp := wil (xs.map (fun r => r.2.1)) (xs.map (fun r => r.2.2))
    (s, wp.1, wp.2))

/-- Loop over the model pairs of `wilcoxon_rank_preds`; a model name
missing from `model_preds` raises `KeyError`. -/
def goPairs {α : Type} [LinearOrder α] (wil : List ℚ → List ℚ → ℚ × ℚ)
    (model_preds : List (α × List (α × ℚ))) :
    List (α × α) → Except PyErr (List ((α × α × α) × ℚ × ℚ))
  | [] => .ok []
  | (m1, m2) :: rest =>
    match lookupKey model_preds m1, lookupKey model_preds m2 with
    | some p1, some p2 => do
      let others ← goPairs wil model_preds rest
      pure ((pairTest wil (joinRanks p1 p2)).map (fun r => ((m1, m2, r.1), r.2)) ++ others)
    | _, _ => .error .keyError

/-- Lexicographic order on the `(model1, model2, subject)` index used to
model `DataFrame.sort_index()`. -/
def tripLe {α : Type} [LinearOrder α] (a b : α × α × α) : Prop :=
  a.1 < b.1 ∨ (a.1 = b.1 ∧ (a.2.1 < b.2.1 ∨ (a.2.1 = b.2.1 ∧ a.2.2 ≤ b.2.2)))

instance tripLe.instDecidable {α : Type} [LinearOrder α] :
    DecidableRel (@tripLe α _) := fun a b => by unfold tripLe; infer_instance

/-- Model of `results.sort_index()` on the concatenated results. -/
def sortRows {α : Type} [LinearOrder α] (rows : List ((α × α × α) × ℚ × ℚ)) :
    List ((α × α × α) × ℚ × ℚ) :=
  @List.insertionSort _ (fun x y => tripLe x.1 y.1)
    (fun x y => tripLe.instDecidable x.1 y.1) rows

/-- Model of `wilcoxon_rank_preds` (lines 156-185 of `util.py`).  `wil`
models `scipy.stats.wilcoxon`; `model_preds` maps each model name to its
prediction rows `(subject, rank)` as read (index-sorted) from its CSV
file; `pairs = none` models the `pairs=None` default, which tests all
2-combinations of the models.  An output row is
`((model1, model2, subject), (w_stat, p_val, p_val_corrected?))`, with
the corrected column present exactly when `correct_bonferroni` is true,
holding `p_val` times the number of rows of the sorted results table. -/
def wilcoxon_rank_preds {α : Type} [LinearOrder α]
    (wil : List ℚ → List ℚ → ℚ × ℚ) (model_preds : List (α × List (α × ℚ)))
    (correct_bonferroni : Bool) (pairs : Option (List (α × α))) :
    Except PyErr (List ((α × α × α) × ℚ × ℚ × Option ℚ)) := do
  let prs := match pairs with
    | some ps => ps
    | none => combos (model_preds.map (fun kv => kv.1))
  let rows0 ← goPairs wil model_preds prs
  let rows := sortRows rows0
  if correct_bonferroni then
    pure (rows.map (fun r => (r.1, r.2.1, r.2.2, some (r.2.2 * (rows.length : ℚ)))))
  else
    pure (rows.map (fun r => (r.1, r.2.1, r.2.2, none)))

/-! Properties of the argsort model. -/

theorem keyLt_irrefl {α : Type} [LinearOrder α] (f : ℕ → α) (i : ℕ) :
    ¬ keyLt f i i := by
  rintro (h | ⟨-, h⟩) <;> exact absurd h (lt_irrefl _)

theorem keyLt_of_keyLe_of_ne {α : Type} [LinearOrder α] {f : ℕ → α} {i j : ℕ}
    (h : keyLe f i j) (hne : i ≠ j) : keyLt f i j := by
  rcases h with h | ⟨h1, h2⟩
  · exact Or.inl h
  · exact Or.inr ⟨h1, lt_of_le_of_ne h2 hne⟩

theorem not_keyLe_of_keyLt {α : Type} [LinearOrder α] {f : ℕ → α} {i j : ℕ}
    (h : keyLt f i j) : ¬ keyLe f j i := by
  rintro (h' | ⟨h1', h2'⟩)
  · rcases h with h | ⟨h1, -⟩
    · exact absurd (h.trans h') (lt_irrefl _)
    · exact absurd h1 (ne_of_gt h')
  · rcases h with h | ⟨-, h2⟩
    · exact absurd h1' (ne_of_gt h)
    · exact absurd (lt_of_lt_of_le h2 h2') (lt_irrefl _)

theorem indexOf_sorted_nodup {α : Type} [LinearOrder α] (f : ℕ → α) :
    ∀ l : List ℕ, l.Sorted (keyLe f) → l.Nodup → ∀ j ∈ l,
      l.indexOf j = l.countP (fun k => decide (keyLt f k j))
  | [], _, _, j, hj => absurd hj (List.not_mem_nil j)
  | a :: t, hsort, hnodup, j, hj => by
    have hhead : ∀ b ∈ t, keyLe f a b := (List.sorted_cons.mp hsort).1
    have htsort : List.Sorted (keyLe f) t := (List.sorted_cons.mp hsort).2
    have hanot : a ∉ t := (List.nodup_cons.mp hnodup).1
    have htnodup : t.Nodup := (List.nodup_cons.mp hnodup).2
    rcases List.mem_cons.mp hj with rfl | hjt
    · rw [List.indexOf_cons_self, List.countP_cons]
      have h0 : t.countP (fun k => decide (keyLt f k j)) = 0 := by
        rw [List.countP_eq_zero]
        intro k hk
        simp only [decide_eq_true_eq]
        intro hlt
        exact not_keyLe_of_keyLt hlt (hhead k hk)
      simp [h0, keyLt_irrefl f j]
    · have hne : j ≠ a := by
        rintro rfl; exact hanot hjt
      rw [List.indexOf_cons_ne _ (by simpa using hne.symm), List.countP_cons]
      have hpa : keyLt f a j := keyLt_of_keyLe_of_ne (hhead j hjt) (by
        rintro rfl; exact hanot hjt)
      rw [indexOf_sorted_nodup f t htsort htnodup j hjt]
      simp [hpa]

theorem argsort_perm {α : Type} [LinearOrder α] (f : ℕ → α) (n : ℕ) :
    (argsort f n).Perm (List.range n) :=
  List.perm_insertionSort (keyLe f) (List.range n)

theorem argsort_length {α : Type} [LinearOrder α] (f : ℕ → α) (n : ℕ) :
    (argsort f n).length = n :=
  ((argsort_perm f n).length_eq).trans (List.length_range n)

theorem argsort_nodup {α : Type} [LinearOrder α] (f : ℕ → α) (n : ℕ) :
    (argsort f n).Nodup :=
  ((argsort_perm f n).symm.nodup (List.nodup_range n))

theorem mem_argsort {α : Type} [LinearOrder α] (f : ℕ → α) {n j : ℕ} :
    j ∈ argsort f n ↔ j < n := by
  rw [(argsort_perm f n).mem_iff, List.mem_range]

theorem argsort_indexOf {α : Type} [LinearOrder α] (f : ℕ → α) (n j : ℕ)
    (hj : j < n) :
    (argsort f n).indexOf j
      = (List.range n).countP (fun k => decide (keyLt f k j)) := by
  have hsort : (argsort f n).Sorted (keyLe f) :=
    List.sorted_insertionSort (keyLe f) (List.range n)
  rw [indexOf_sorted_nodup f _ hsort (argsort_nodup f n) j
    ((mem_argsort f).mpr hj)]
  exact (argsort_perm f n).countP_eq _

theorem countP_range_lt (c n : ℕ) :
    (List.range n).countP (fun v => decide (v < c)) = min c n := by
  induction n with
  | zero => simp
  | succ n ih =>
    rw [List.range_succ, List.countP_append, ih]
    by_cases h : n < c
    · simp [h]; omega
    · simp [h]; omega

theorem map_getD_range {β : Type} (l : List β) (d : β) :
    (List.range l.length).map (fun i => l.getD i d) = l := by
  induction l with
  | nil => simp
  | cons a t ih =>
    rw [List.length_cons, List.range_succ_eq_map, List.map_cons, List.map_map]
    simp only [List.getD_cons_zero]
    congr 1

theorem argsort_getD_indexOf (v : List ℕ) (n : ℕ) (hperm : v.Perm (List.range n))
    (j : ℕ) (hj : j < n) :
    (argsort (fun i => v.getD i 0) n).getD j 0 = v.indexOf j := by
  have hlen : v.length = n := hperm.length_eq.trans (List.length_range n)
  have hvnodup : v.Nodup := hperm.symm.nodup (List.nodup_range n)
  have step1 : ∀ i, i < n →
      (argsort (fun i => v.getD i 0) n).indexOf i = v.getD i 0 := by
    intro i hi
    rw [argsort_indexOf _ n i hi]
    have hgi : v.getD i 0 < n := by
      have hmem : v.getD i 0 ∈ v := by
        rw [List.getD_eq_getElem v 0 (hlen ▸ hi)]
        exact List.getElem_mem _
      exact List.mem_range.mp (hperm.mem_iff.mp hmem)
    have hcong :
        (List.range n).countP (fun k => decide (keyLt (fun i => v.getD i 0) k i))
          = (List.range n).countP (fun k => decide (v.getD k 0 < v.getD i 0)) := by
      apply List.countP_congr
      intro k hk
      have hkn : k < n := List.mem_range.mp hk
      simp only [decide_eq_true_eq]
      constructor
      · rintro (h | ⟨heq, hlt⟩)
        · exact h
        · have hk' : v.indexOf (v.getD k 0) = k := by
            rw [List.getD_eq_getElem v 0 (hlen ▸ hkn)]
            exact List.indexOf_getElem hvnodup k (hlen ▸ hkn)
          have hi' : v.indexOf (v.getD i 0) = i := by
            rw [List.getD_eq_getElem v 0 (hlen ▸ hi)]
            exact List.indexOf_getElem hvnodup i (hlen ▸ hi)
          have heq' : v.getD k 0 = v.getD i 0 := heq
          rw [heq', hi'] at hk'
          omega
      · intro h
        exact Or.inl h
    have hmapv : (List.range n).map (fun i => v.getD i 0) = v := by
      rw [← hlen]
      exact map_getD_range v 0
    have hcnt : (List.range n).countP (fun k => decide (v.getD k 0 < v.getD i 0))
        = ((List.range n).map (fun i => v.getD i 0)).countP
            (fun x => decide (x < v.getD i 0)) := by
      rw [List.countP_map]
      rfl
    rw [hcong, hcnt, hmapv, hperm.countP_eq, countP_range_lt]
    exact Nat.min_eq_left (Nat.le_of_lt hgi)
  have hqlen : (argsort (fun i => v.getD i 0) n).length = n := argsort_length _ n
  have hjq : j < (argsort (fun i => v.getD i 0) n).length := by omega
  rw [List.getD_eq_getElem _ 0 hjq]
  have hi0lt : (argsort (fun i => v.getD i 0) n).get ⟨j, hjq⟩ < n := by
    apply (mem_argsort (fun i => v.getD i 0)).mp
    exact List.getElem_mem hjq
  have hidx : (argsort (fun i => v.getD i 0) n).indexOf
      ((argsort (fun i => v.getD i 0) n).get ⟨j, hjq⟩) = j :=
    List.indexOf_getElem (argsort_nodup _ n) j hjq
  have hvj : v.getD ((argsort (fun i => v.getD i 0) n).get ⟨j, hjq⟩) 0 = j := by
    rw [← step1 _ hi0lt]
    exact hidx
  have hvj' : v.getD ((argsort (fun i => v.getD i 0) n).get ⟨j, hjq⟩) 0
      = v.get ⟨(argsort (fun i => v.getD i 0) n).get ⟨j, hjq⟩, hlen ▸ hi0lt⟩ :=
    List.getD_eq_getElem v 0 (hlen ▸ hi0lt)
  have : v.indexOf j = (argsort (fun i => v.getD i 0) n).get ⟨j, hjq⟩ := by
    conv_lhs => rw [← hvj]
    rw [hvj']
    exact List.indexOf_getElem hvnodup _ (hlen ▸ hi0lt)
  rw [this]
  rfl

/-- Length of one rank row: `M`, the number of reference encodings. -/
theorem rankRow_length (sim : ℕ → ℚ) (M : ℕ) : (rankRow sim M).length = M :=
  argsort_length _ M

/-- The double argsort of a row sends position `j` to the position of `j`
in the descending similarity order `orders`. -/
theorem rankRow_getD (sim : ℕ → ℚ) (M j : ℕ) (hj : j < M) :
    (rankRow sim M).getD j 0
      = (argsort (fun k => -(sim k)) M).indexOf j :=
  argsort_getD_indexOf (argsort (fun k => -(sim k)) M) M
    (argsort_perm _ M) j hj

/-- With pairwise distinct similarities, the rank of `j` is the number of
strictly more similar candidates. -/
theorem rankRow_getD_distinct (sim : ℕ → ℚ) (M j : ℕ) (hj : j < M)
    (hdist : ∀ k1 k2, k1 < M → k2 < M → sim k1 = sim k2 → k1 = k2) :
    (rankRow sim M).getD j 0
      = (List.range M).countP (fun k => decide (sim j < sim k)) := by
  rw [rankRow_getD sim M j hj, argsort_indexOf _ M j hj]
  apply List.countP_congr
  intro k hk
  have hkM : k < M := List.mem_range.mp hk
  simp only [decide_eq_true_eq]
  constructor
  · rintro (h | ⟨heq, hlt⟩)
    · exact neg_lt_neg_iff.mp h
    · exact absurd (hdist k j hkM hj (neg_injective heq)) (Nat.ne_of_lt hlt)
  · intro h
    exact Or.inl (neg_lt_neg h)

/-- A strictly maximal similarity gets rank `0`. -/
theorem rankRow_getD_strictmax (sim : ℕ → ℚ) (M j : ℕ) (hj : j < M)
    (hmax : ∀ k, k < M → k ≠ j → sim k < sim j) :
    (rankRow sim M).getD j 0 = 0 := by
  rw [rankRow_getD sim M j hj, argsort_indexOf _ M j hj]
  rw [List.countP_eq_zero]
  intro k hk
  have hkM : k < M := List.mem_range.mp hk
  simp only [decide_eq_true_eq]
  rintro (h | ⟨heq, hlt⟩)
  · rcases eq_or_ne k j with rfl | hne
    · exact absurd h (lt_irrefl _)
    · exact absurd (neg_lt_neg_iff.mp h) (not_lt_of_gt (hmax k hkM hne))
  · have hne : k ≠ j := Nat.ne_of_lt hlt
    exact absurd (neg_injective heq) (ne_of_lt (hmax k hkM hne))

/-! Properties of the dot product. -/

theorem dot_self_nonneg : ∀ u : List ℚ, 0 ≤ dot u u
  | [] => le_refl 0
  | a :: u => by
    have h := dot_self_nonneg u
    simp only [dot, List.zipWith_cons_cons, List.sum_cons] at h ⊢
    nlinarith [mul_self_nonneg a]

theorem dot_sub_expand : ∀ u v : List ℚ, u.length = v.length →
    dot (List.zipWith (fun a b => a - b) u v) (List.zipWith (fun a b => a - b) u v)
      = dot u u - 2 * dot u v + dot v v
  | [], [], _ => by simp [dot]
  | [], _ :: _, h => by simp at h
  | _ :: _, [], h => by simp at h
  | a :: u, b :: v, h => by
    have h' : u.length = v.length := by simpa using h
    have ih := dot_sub_expand u v h'
    simp only [dot, List.zipWith_cons_cons, List.sum_cons] at ih ⊢
    ring_nf
    ring_nf at ih
    linarith [ih]

theorem dot_sub_self_pos : ∀ u v : List ℚ, u.length = v.length → u ≠ v →
    0 < dot (List.zipWith (fun a b => a - b) u v) (List.zipWith (fun a b => a - b) u v)
  | [], [], _, hne => absurd rfl hne
  | [], _ :: _, h, _ => by simp at h
  | _ :: _, [], h, _ => by simp at h
  | a :: u, b :: v, h, hne => by
    have h' : u.length = v.length := by simpa using h
    rcases eq_or_ne a b with rfl | hab
    · have huv : u ≠ v := by
        rintro rfl; exact hne rfl
      have ih := dot_sub_self_pos u v h' huv
      simp only [dot, List.zipWith_cons_cons, List.sum_cons] at ih ⊢
      nlinarith [mul_self_nonneg (a - a)]
    · have hpos : 0 < (a - b) * (a - b) :=
        mul_self_pos.mpr (sub_ne_zero_of_ne hab)
      have hrest := dot_self_nonneg (List.zipWith (fun a b => a - b) u v)
      simp only [dot, List.zipWith_cons_cons, List.sum_cons]
      simp only [dot] at hrest
      nlinarith

/-- For reference vectors of equal self-similarity, a vector's similarity
with a different vector is strictly below its self-similarity. -/
theorem dot_lt_dot_self (u v : List ℚ) (h : u.length = v.length) (hne : u ≠ v)
    (hnorm : dot v v = dot u u) : dot u v < dot u u := by
  have h1 := dot_sub_self_pos u v h hne
  rw [dot_sub_expand u v h] at h1
  linarith

/-! Inversion of `eval_ranks`. -/

/-- Unfolding of a successful `eval_ranks` call: the assertion
`len(Y_pred) == len(idxs)` held, all `idxs` entries are in range, and the
three results are the processed prediction matrix, its rank matrix and
the extracted `rank_of_correct` vector. -/
theorem eval_ranks_ok {Y_pred : List (List ℚ)} {idxs : List ℕ}
    {encodings : List (List ℚ)} {flag : Bool}
    {ranks : List (List ℕ)} {rtest : List ℕ} {Yfin : List (List ℚ)}
    (h : eval_ranks Y_pred idxs encodings flag = .ok (ranks, rtest, Yfin)) :
    Y_pred.length = idxs.length ∧
    Yfin = (if flag then normRows (centerCols Y_pred) else Y_pred) ∧
    ranks = (List.range Y_pred.length).map
      (fun i => rankRow (simOf Yfin encodings i) encodings.length) ∧
    rtest = List.zipWith (fun row ix => row.getD ix 0) ranks idxs ∧
    ∀ ix ∈ idxs, ix < encodings.length := by
  unfold eval_ranks at h
  by_cases hlen : Y_pred.length = idxs.length
  · rw [if_pos hlen] at h
    by_cases hany : idxs.any (fun ix => decide (encodings.length ≤ ix))
    · rw [if_pos hany] at h
      exact absurd h (by simp)
    · rw [if_neg hany] at h
      have h' := Except.ok.inj h
      rw [Prod.mk.injEq, Prod.mk.injEq] at h'
      obtain ⟨h1, h2a, h2b⟩ := h'
      refine ⟨hlen, h2b.symm, ?_, ?_, ?_⟩
      · rw [← h1, h2b]
      · rw [← h2a, ← h1]
      · intro ix hix
        by_contra hge
        apply hany
        rw [List.any_eq_true]
        exact ⟨ix, hix, by simpa using Nat.le_of_not_lt hge⟩
  · rw [if_neg hlen] at h
    exact absurd h (by simp)

/-! Claim theorems about `eval_ranks`. -/

theorem eval_ranks_ranks_row {Y_pred : List (List ℚ)} {idxs : List ℕ}
    {encodings : List (List ℚ)} {flag : Bool} {ranks : List (List ℕ)}
    {rtest : List ℕ} {Yfin : List (List ℚ)}
    (h : eval_ranks Y_pred idxs encodings flag = .ok (ranks, rtest, Yfin))
    {i : ℕ} (hi : i < Y_pred.length) :
    ranks.getD i [] = rankRow (simOf Yfin encodings i) encodings.length := by
  obtain ⟨-, -, hranks, -, -⟩ := eval_ranks_ok h
  have hlenm : i < ((List.range Y_pred.length).map
      (fun i => rankRow (simOf Yfin encodings i) encodings.length)).length := by
    rw [List.length_map, List.length_range]
    exact hi
  rw [hranks, List.getD_eq_getElem _ [] hlenm, List.getElem_map, List.getElem_range]

theorem eval_ranks_ranks_length {Y_pred : List (List ℚ)} {idxs : List ℕ}
    {encodings : List (List ℚ)} {flag : Bool} {ranks : List (List ℕ)}
    {rtest : List ℕ} {Yfin : List (List ℚ)}
    (h : eval_ranks Y_pred idxs encodings flag = .ok (ranks, rtest, Yfin)) :
    ranks.length = Y_pred.length := by
  obtain ⟨-, -, hranks, -, -⟩ := eval_ranks_ok h
  rw [hranks, List.length_map, List.length_range]

theorem eval_ranks_rtest_getD {Y_pred : List (List ℚ)} {idxs : List ℕ}
    {encodings : List (List ℚ)} {flag : Bool} {ranks : List (List ℕ)}
    {rtest : List ℕ} {Yfin : List (List ℚ)}
    (h : eval_ranks Y_pred idxs encodings flag = .ok (ranks, rtest, Yfin))
    {i : ℕ} (hi : i < idxs.length) :
    rtest.getD i 0 = (ranks.getD i []).getD (idxs.getD i 0) 0 := by
  obtain ⟨hlen, -, -, hrtest, -⟩ := eval_ranks_ok h
  have hrlen : ranks.length = Y_pred.length := eval_ranks_ranks_length h
  have hir : i < ranks.length := by omega
  have hzlen : i < (List.zipWith
      (fun (row : List ℕ) (ix : ℕ) => row.getD ix 0) ranks idxs).length := by
    rw [List.length_zipWith]
    omega
  rw [hrtest, List.getD_eq_getElem _ 0 hzlen, List.getElem_zipWith,
    List.getD_eq_getElem ranks [] hir, List.getD_eq_getElem idxs 0 hi]

theorem eval_ranks_rtest_length {Y_pred : List (List ℚ)} {idxs : List ℕ}
    {encodings : List (List ℚ)} {flag : Bool} {ranks : List (List ℕ)}
    {rtest : List ℕ} {Yfin : List (List ℚ)}
    (h : eval_ranks Y_pred idxs encodings flag = .ok (ranks, rtest, Yfin)) :
    rtest.length = idxs.length := by
  obtain ⟨hlen, -, -, hrtest, -⟩ := eval_ranks_ok h
  have hrlen : ranks.length = Y_pred.length := eval_ranks_ranks_length h
  rw [hrtest, List.length_zipWith]
  omega

/-- C9: `eval_ranks` requires `len(Y_pred) == len(idxs)` as a
precondition: with equal lengths the internal assertion never fires and
the call proceeds; with different lengths the call fails at the
assertion. -/
theorem C9_theorem (Y_pred : List (List ℚ)) (idxs : List ℕ)
    (encodings : List (List ℚ)) (flag : Bool) :
    (Y_pred.length = idxs.length →
      eval_ranks Y_pred idxs encodings flag ≠ .error .assertionError) ∧
    (Y_pred.length ≠ idxs.length →
      eval_ranks Y_pred idxs encodings flag = .error .assertionError) := by
  constructor
  · intro hlen
    unfold eval_ranks
    rw [if_pos hlen]
    by_cases hany : idxs.any (fun ix => decide (encodings.length ≤ ix))
    · rw [if_pos hany]
      simp
    · rw [if_neg hany]
      simp
  · intro hlen
    unfold eval_ranks
    rw [if_neg hlen]

theorem C9_witness :
    eval_ranks [[(1 : ℚ)]] [0, 1] [[1]] true = .error .assertionError ∧
    eval_ranks [[(1 : ℚ), 0]] [0] [[1, 0], [0, 1]] false ≠ .error .assertionError :=
  ⟨(C9_theorem [[(1 : ℚ)]] [0, 1] [[1]] true).2 (by decide),
   (C9_theorem [[(1 : ℚ), 0]] [0] [[1, 0], [0, 1]] false).1 (by decide)⟩

/-- C5: a successful `eval_ranks Y_pred idxs encodings` call returns a
rank matrix of shape `N_test × M` whose row `i` is the double argsort of
the dot-product similarities between the (optionally re-centered and
L2-normalized) prediction `i` and all `M` encodings — so that, when the
similarities of row `i` are pairwise distinct, `ranks[i][j]` is the
position of encoding `j` in the descending similarity order, i.e. the
number of strictly more similar encodings — and a `rank_of_correct`
vector with `rank_of_correct[i] = ranks[i][idxs[i]]`. -/
theorem C5_theorem (Y_pred : List (List ℚ)) (idxs : List ℕ)
    (encodings : List (List ℚ)) (flag : Bool) (ranks : List (List ℕ))
    (rtest : List ℕ) (Yfin : List (List ℚ))
    (h : eval_ranks Y_pred idxs encodings flag = .ok (ranks, rtest, Yfin)) :
    Yfin = (if flag then normRows (centerCols Y_pred) else Y_pred) ∧
    ranks.length = Y_pred.length ∧
    (∀ row ∈ ranks, row.length = encodings.length) ∧
    (∀ i j, i < Y_pred.length → j < encodings.length →
      (∀ k1 ∈ List.range encodings.length, ∀ k2 ∈ List.range encodings.length,
        simOf Yfin encodings i k1 = simOf Yfin encodings i k2 → k1 = k2) →
      (ranks.getD i []).getD j 0
        = (List.range encodings.length).countP
            (fun k => decide (simOf Yfin encodings i j < simOf Yfin encodings i k))) ∧
    (∀ i, i < idxs.length →
      rtest.getD i 0 = (ranks.getD i []).getD (idxs.getD i 0) 0) := by
  obtain ⟨hlen, hY, hranks, hrtest, hidx⟩ := eval_ranks_ok h
  refine ⟨hY, eval_ranks_ranks_length h, ?_, ?_, ?_⟩
  · intro row hrow
    rw [hranks] at hrow
    obtain ⟨i, -, hrow⟩ := List.mem_map.mp hrow
    rw [← hrow]
    exact rankRow_length _ _
  · intro i j hi hj hdist
    rw [eval_ranks_ranks_row h hi]
    exact rankRow_getD_distinct _ _ j hj
      (fun k1 k2 h1 h2 heq =>
        hdist k1 (List.mem_range.mpr h1) k2 (List.mem_range.mpr h2) heq)
  · intro i hi
    exact eval_ranks_rtest_getD h hi

theorem C5_witness :
    (([[0, 1]] : List (List ℕ)).getD 0 []).getD 0 0
      = (List.range 2).countP
          (fun k => decide (simOf [[(1 : ℚ), 0]] [[1, 0], [0, 1]] 0 0
            < simOf [[(1 : ℚ), 0]] [[1, 0], [0, 1]] 0 k)) :=
  (C5_theorem [[(1 : ℚ), 0]] [0] [[1, 0], [0, 1]] false [[0, 1]] [0] [[1, 0]]
    (by decide)).2.2.2.1 0 0 (by decide) (by decide) (by decide)

/-- C1 fails on the code: with predictions exactly equal to their
reference encodings, a longer unrelated encoding can outrank the true
one, for both values of `encodings_normed`; here `rank_of_correct` is
`[1, 0]`, not all zeros, although the exactness hypothesis holds. -/
theorem C1_counterexample :
    (∀ i ∈ List.range 2,
      ([[(3 : ℚ), 4], [-3, -4]].getD i [])
        = ([[(3 : ℚ), 4], [-3, -4], [30, 40]].getD ([0, 1].getD i 0) [])) ∧
    (eval_ranks [[3, 4], [-3, -4]] [0, 1] [[3, 4], [-3, -4], [30, 40]] true).map
      (fun t => t.2.1) = .ok [1, 0] ∧
    (eval_ranks [[3, 4], [-3, -4]] [0, 1] [[3, 4], [-3, -4], [30, 40]] false).map
      (fun t => t.2.1) = .ok [1, 0] ∧
    (1 : ℕ) ≠ 0 := by decide

/-- C1 (amended): when `encodings_normed=False`, the encodings are
pairwise distinct rows of one common width sharing one self-similarity
(equal squared L2 norms), and every prediction equals its reference
encoding, the returned `rank_of_correct` vector is `0` in every
position. -/
theorem C1_theorem (Y_pred : List (List ℚ)) (idxs : List ℕ)
    (encodings : List (List ℚ)) (d : ℕ) (c : ℚ) (ranks : List (List ℕ))
    (rtest : List ℕ) (Yfin : List (List ℚ))
    (h : eval_ranks Y_pred idxs encodings false = .ok (ranks, rtest, Yfin))
    (hexact : ∀ i ∈ List.range idxs.length,
      Y_pred.getD i [] = encodings.getD (idxs.getD i 0) [])
    (hrect : ∀ e ∈ encodings, e.length = d)
    (hnorm : ∀ e ∈ encodings, dot e e = c)
    (hdistinct : encodings.Nodup) :
    rtest = List.replicate idxs.length 0 := by
  obtain ⟨hlen, hY, hranks, hrtest, hidx⟩ := eval_ranks_ok h
  have hYfin : Yfin = Y_pred := by simpa using hY
  have hrtlen : rtest.length = idxs.length := eval_ranks_rtest_length h
  apply List.ext_getElem
  · rw [hrtlen, List.length_replicate]
  intro i hi hirep
  rw [List.getElem_replicate]
  have hi' : i < idxs.length := by omega
  rw [← List.getD_eq_getElem rtest 0 hi, eval_ranks_rtest_getD h hi',
    eval_ranks_ranks_row h (by omega)]
  set jc := idxs.getD i 0 with hjc
  have hjmem : jc ∈ idxs := by
    rw [hjc, List.getD_eq_getElem idxs 0 hi']
    exact List.getElem_mem hi'
  have hjM : jc < encodings.length := hidx _ hjmem
  apply rankRow_getD_strictmax _ _ _ hjM
  intro k hk hkne
  have hYi : Yfin.getD i [] = encodings.getD jc [] := by
    rw [hYfin]
    exact hexact i (List.mem_range.mpr hi')
  have hkmem : encodings.getD k [] ∈ encodings := by
    rw [List.getD_eq_getElem encodings [] hk]
    exact List.getElem_mem hk
  have hjmem2 : encodings.getD jc [] ∈ encodings := by
    rw [List.getD_eq_getElem encodings [] hjM]
    exact List.getElem_mem hjM
  have hne : encodings.getD jc [] ≠ encodings.getD k [] := by
    intro heq
    apply hkne
    have hidx1 := List.indexOf_getElem hdistinct jc hjM
    have hidx2 := List.indexOf_getElem hdistinct k hk
    rw [List.getD_eq_getElem encodings [] hjM,
      List.getD_eq_getElem encodings [] hk] at heq
    rw [heq, hidx2] at hidx1
    exact hidx1
  have hlen2 : (encodings.getD jc []).length = (encodings.getD k []).length := by
    rw [hrect _ hjmem2, hrect _ hkmem]
  have hnorm2 : dot (encodings.getD k []) (encodings.getD k [])
      = dot (encodings.getD jc []) (encodings.getD jc []) := by
    rw [hnorm _ hkmem, hnorm _ hjmem2]
  simp only [simOf, hYi]
  exact dot_lt_dot_self _ _ hlen2 hne hnorm2

theorem C1_witness : ([0] : List ℕ) = List.replicate 1 0 :=
  C1_theorem [[(1 : ℚ), 0]] [0] [[1, 0], [0, 1]] 2 1 [[0, 1]] [0] [[1, 0]]
    (by decide) (by decide) (by decide) (by decide) (by decide)

/-- C3 fails on the code: with `encodings_normed=True`, `eval_ranks`
mutates its `Y_pred` argument in place (`Y_pred -= ...` and
`Y_pred /= ...`, lines 138-139 of `util.py`), leaving the re-centered,
row-normalized matrix in the caller's buffer instead of the original
values. -/
theorem C3_counterexample :
    eval_ranks [[3, 4], [-3, -4]] [0, 1] [[3, 4], [-3, -4], [30, 40]] true
      = .ok ([[1, 2, 0], [1, 0, 2]], [1, 0], [[3/5, 4/5], [-3/5, -4/5]]) ∧
    ([[(3 : ℚ)/5, 4/5], [-3/5, -4/5]] : List (List ℚ)) ≠ [[3, 4], [-3, -4]] := by
  decide

/-- C3 (amended): the modelled functions are pure and deterministic,
except that `eval_ranks` with `encodings_normed=True` re-centers and
L2-normalizes its `Y_pred` argument in place; with
`encodings_normed=False` the `Y_pred` buffer is left unchanged. -/
theorem C3_theorem (Y_pred : List (List ℚ)) (idxs : List ℕ)
    (encodings : List (List ℚ)) (ranks : List (List ℕ)) (rtest : List ℕ)
    (Yfin : List (List ℚ))
    (h : eval_ranks Y_pred idxs encodings false = .ok (ranks, rtest, Yfin)) :
    Yfin = Y_pred := by
  have hY := (eval_ranks_ok h).2.1
  simpa using hY

theorem C3_witness : ([[(1 : ℚ), 0]] : List (List ℚ)) = [[1, 0]] :=
  C3_theorem [[(1 : ℚ), 0]] [0] [[1, 0], [0, 1]] [[0, 1]] [0] [[1, 0]] (by decide)

/-! Claim theorems about the result loaders. -/

theorem except_bind_ok {ε A B : Type} {x : Except ε A} {f : A → Except ε B} {b : B}
    (h : x.bind f = .ok b) : ∃ a, x = .ok a ∧ f a = .ok b := by
  cases x with
  | error e => exact absurd h (by simp [Except.bind])
  | ok a => exact ⟨a, rfl, by simpa [Except.bind] using h⟩

theorem dictInsert_ne_nil {κ ν : Type} [DecidableEq κ] (d : List (κ × ν))
    (k : κ) (v : ν) : dictInsert d k v ≠ [] := by
  unfold dictInsert
  by_cases hd : d.any (fun kv => decide (kv.1 = k))
  · rw [if_pos hd]
    intro hmap
    rw [List.map_eq_nil_iff] at hmap
    subst hmap
    simp at hd
  · rw [if_neg hd]
    simp

theorem collectResults_ok_ne_nil {ν : Type} (sfx : String) :
    ∀ (files : List (String × ν)) (acc d : List (DecoderKey × ν)),
      collectResults sfx files acc = .ok d → acc ≠ [] → d ≠ []
  | [], acc, d, h, hacc => by
    unfold collectResults at h
    injection h with h
    rwa [← h]
  | (name, content) :: rest, acc, d, h, hacc => by
    unfold collectResults at h
    cases hp : decoderParse sfx name with
    | none =>
      rw [hp] at h
      exact absurd h (by simp)
    | some q =>
      obtain ⟨m, r, s, subj⟩ := q
      rw [hp] at h
      exact collectResults_ok_ne_nil sfx rest _ d h (dictInsert_ne_nil _ _ _)

theorem collectResults_error_eq {ν : Type} (sfx : String) :
    ∀ (files : List (String × ν)) (acc : List (DecoderKey × ν)) (e : PyErr),
      collectResults sfx files acc = .error e → e = .indexError
  | [], acc, e, h => by
    unfold collectResults at h
    exact absurd h (by simp)
  | (name, content) :: rest, acc, e, h => by
    unfold collectResults at h
    cases hp : decoderParse sfx name with
    | none =>
      rw [hp] at h
      injection h with h
      exact h.symm
    | some q =>
      obtain ⟨m, r, s, subj⟩ := q
      rw [hp] at h
      exact collectResults_error_eq sfx rest _ e h

theorem collectResults_cons_ok_ne_nil {ν : Type} (sfx : String)
    (f : String × ν) (rest : List (String × ν)) (d : List (DecoderKey × ν))
    (h : collectResults sfx (f :: rest) [] = .ok d) : d ≠ [] := by
  obtain ⟨name, content⟩ := f
  unfold collectResults at h
  cases hp : decoderParse sfx name with
  | none =>
    rw [hp] at h
    exact absurd h (by simp)
  | some q =>
    obtain ⟨m, r, s, subj⟩ := q
    rw [hp] at h
    exact collectResults_ok_ne_nil sfx rest _ d h (by simp [dictInsert])

/-- C4: the loaders raise the documented "no results found" `ValueError`
exactly when the glob yields zero files: on an empty file list both
`load_decoding_perfs` and `load_decoding_preds` raise it, and with at
least one globbed file neither can raise it (an unparsable name raises
`IndexError` instead, and success returns a result). -/
theorem C4_theorem :
    load_decoding_perfs [] = .error (.valueError noCsvMsg) ∧
    load_decoding_preds [] = .error (.valueError noNpyMsg) ∧
    (∀ files : List (String × List (ℚ × ℚ)), files ≠ [] → ∀ msg,
      load_decoding_perfs files ≠ .error (.valueError msg)) ∧
    (∀ files : List (String × List (List ℚ)), files ≠ [] → ∀ msg,
      load_decoding_preds files ≠ .error (.valueError msg)) := by
  refine ⟨by decide, by decide, ?_, ?_⟩
  · rintro (_ | ⟨f, rest⟩) hne msg h
    · exact hne rfl
    · unfold load_decoding_perfs at h
      cases hg : collectResults csvSfx (f :: rest) [] with
      | error e =>
        rw [hg] at h
        have he : e = .indexError := collectResults_error_eq csvSfx _ _ e hg
        subst he
        exact PyErr.noConfusion (Except.error.inj h)
      | ok results =>
        rw [hg] at h
        have hres : results ≠ [] := collectResults_cons_ok_ne_nil csvSfx f rest results hg
        have hni : ¬ (results.isEmpty = true) := by
          cases results with
          | nil => exact absurd rfl hres
          | cons a t => simp [List.isEmpty]
        have h' : (if results.isEmpty
            then (Except.error (PyErr.valueError noCsvMsg) : Except PyErr _)
            else pure (results.flatMap (fun kv => kv.2.map (fun row => (kv.1, row)))))
            = Except.error (PyErr.valueError msg) := h
        rw [if_neg hni] at h'
        exact Except.noConfusion h'
  · rintro (_ | ⟨f, rest⟩) hne msg h
    · exact hne rfl
    · unfold load_decoding_preds at h
      cases hg : collectResults npySfx (f :: rest) [] with
      | error e =>
        rw [hg] at h
        have he : e = .indexError := collectResults_error_eq npySfx _ _ e hg
        subst he
        exact PyErr.noConfusion (Except.error.inj h)
      | ok results =>
        rw [hg] at h
        have hres : results ≠ [] := collectResults_cons_ok_ne_nil npySfx f rest results hg
        have hni : ¬ (results.isEmpty = true) := by
          cases results with
          | nil => exact absurd rfl hres
          | cons a t => simp [List.isEmpty]
        have h' : (if results.isEmpty
            then (Except.error (PyErr.valueError noNpyMsg) : Except PyErr _)
            else pure results)
            = Except.error (PyErr.valueError msg) := h
        rw [if_neg hni] at h'
        exact Except.noConfusion h'

theorem C4_witness :
    load_decoding_perfs
      [(String.mk ['x', '.', 'm', '-', 'r', 'u', 'n', '1', '-', '2', '-', 's', '.', 'c', 's', 'v'], [])]
      ≠ .error (.valueError noCsvMsg) :=
  C4_theorem.2.2.1
    [(String.mk ['x', '.', 'm', '-', 'r', 'u', 'n', '1', '-', '2', '-', 's', '.', 'c', 's', 'v'], [])]
    (by decide) noCsvMsg

theorem collectResults_bad {ν : Type} (sfx : String) :
    ∀ (pre : List (String × ν)) (acc : List (DecoderKey × ν)) (name : String)
      (content : ν) (post : List (String × ν)),
      (∀ f ∈ pre, (decoderParse sfx f.1).isSome) →
      decoderParse sfx name = none →
      collectResults sfx (pre ++ (name, content) :: post) acc = .error .indexError
  | [], acc, name, content, post, hpre, hbad => by
    rw [List.nil_append]
    unfold collectResults
    rw [hbad]
  | (n0, c0) :: pre, acc, name, content, post, hpre, hbad => by
    rw [List.cons_append]
    unfold collectResults
    have h0 : (decoderParse sfx n0).isSome := hpre (n0, c0) (List.mem_cons_self _ _)
    cases hp : decoderParse sfx n0 with
    | none => exact absurd (hp ▸ h0) (by simp)
    | some q =>
      obtain ⟨m, r, s, subj⟩ := q
      exact collectResults_bad sfx pre _ name content post
        (fun f hf => hpre f (List.mem_cons_of_mem _ hf)) hbad

/-- C10: a file whose name matches the glob pattern but not the decoder
regex makes both loaders raise an unhandled `IndexError` (through
`findall(name)[0]` on an empty match list); the file is not skipped, and
the error differs from the documented "no results found" `ValueError`. -/
theorem C10_theorem :
    (∀ (pre : List (String × List (ℚ × ℚ))) (name : String)
      (rows : List (ℚ × ℚ)) (post : List (String × List (ℚ × ℚ))),
      (∀ f ∈ pre, (decoderParse csvSfx f.1).isSome) →
      globMatch csvSfx name = true →
      decoderParse csvSfx name = none →
      load_decoding_perfs (pre ++ (name, rows) :: post) = .error .indexError) ∧
    (∀ (pre : List (String × List (List ℚ))) (name : String)
      (mat : List (List ℚ)) (post : List (String × List (List ℚ))),
      (∀ f ∈ pre, (decoderParse npySfx f.1).isSome) →
      globMatch npySfx name = true →
      decoderParse npySfx name = none →
      load_decoding_preds (pre ++ (name, mat) :: post) = .error .indexError) ∧
    PyErr.indexError ≠ PyErr.valueError noCsvMsg ∧
    PyErr.indexError ≠ PyErr.valueError noNpyMsg := by
  refine ⟨?_, ?_, by simp, by simp⟩
  · intro pre name rows post hpre hglob hbad
    unfold load_decoding_perfs
    rw [collectResults_bad csvSfx pre [] name rows post hpre hbad]
    rfl
  · intro pre name mat post hpre hglob hbad
    unfold load_decoding_preds
    rw [collectResults_bad npySfx pre [] name mat post hpre hbad]
    rfl

theorem C10_witness :
    load_decoding_perfs
      [(String.mk ['r', 'e', 's', 'u', 'l', 't', 's', '.', 'c', 's', 'v'], [])]
      = .error .indexError :=
  C10_theorem.1 [] (String.mk ['r', 'e', 's', 'u', 'l', 't', 's', '.', 'c', 's', 'v'])
    [] [] (by decide) (by decide) (by decide)

/-! Claim theorems about `wilcoxon_rank_preds`. -/

/-- C2 fails on the code: `correction = len(results)` counts one row per
(model pair, subject) — one Wilcoxon test per subject — not the number of
model pairs; with one pair and two subjects the corrected p-value is
`p_val * 2`, not `p_val * 1`. -/
theorem C2_counterexample :
    wilcoxon_rank_preds (fun _u _v => (0, 1/2))
      [(0, [(10, 5), (20, 7)]), (1, [(10, 6), (20, 4)])] true (some [(0, 1)]) =
      .ok [((0, 1, 10), 0, 1/2, some 1), ((0, 1, 20), 0, 1/2, some 1)] ∧
    [((0 : ℕ), (1 : ℕ))].length = 1 ∧
    some (1 : ℚ) ≠ some ((1/2 : ℚ) * (1 : ℚ)) := by decide

/-- C2 (amended): with `correct_bonferroni=True`, every output row's
`p_val_corrected` equals its raw `p_val` multiplied by the total number
of rows of the results table — one row per (model pair, subject), i.e.
one per Wilcoxon comparison performed — with no clamping of the product
to 1.0. -/
theorem C2_theorem {α : Type} [LinearOrder α] (wil : List ℚ → List ℚ → ℚ × ℚ)
    (model_preds : List (α × List (α × ℚ))) (pairs : Option (List (α × α)))
    (rows : List ((α × α × α) × ℚ × ℚ × Option ℚ))
    (h : wilcoxon_rank_preds wil model_preds true pairs = .ok rows) :
    ∀ row ∈ rows, row.2.2.2 = some (row.2.2.1 * (rows.length : ℚ)) := by
  unfold wilcoxon_rank_preds at h
  obtain ⟨rows0, hg, hf⟩ := except_bind_ok h
  have hrows : rows = (sortRows rows0).map
      (fun r => (r.1, r.2.1, r.2.2, some (r.2.2 * ((sortRows rows0).length : ℚ)))) := by
    have := hf
    simp only [if_pos rfl] at this
    exact (Except.ok.inj this).symm
  intro row hrow
  rw [hrows] at hrow
  obtain ⟨r, -, hr⟩ := List.mem_map.mp hrow
  have hlen : rows.length = (sortRows rows0).length := by
    rw [hrows, List.length_map]
  rw [← hr, hlen]

theorem C2_witness :
    some (1 : ℚ) = some ((1/2 : ℚ) *
      (([(((0 : ℕ), (1 : ℕ), (10 : ℕ)), (0 : ℚ), (1/2 : ℚ), some (1 : ℚ)),
        ((0, 1, 20), 0, 1/2, some 1)] :
          List ((ℕ × ℕ × ℕ) × ℚ × ℚ × Option ℚ)).length : ℚ)) :=
  C2_theorem (fun _u _v => (0, 1/2))
    [(0, [(10, 5), (20, 7)]), (1, [(10, 6), (20, 4)])] (some [(0, 1)])
    [((0, 1, 10), 0, 1/2, some 1), ((0, 1, 20), 0, 1/2, some 1)]
    (by decide) ((0, 1, 10), 0, 1/2, some 1) (by decide)

/-! Claim theorems about the PCA loaders. -/

/-- C6: for an input matrix whose rows all have width `D` and a requested
projection dimension `k`: if `k ≤ D` the loaders return a matrix of
width exactly `k` (using sklearn's contract, carried by `hpca`, that the
transform of a fitted `PCA(k)` has `k` columns); if `k > D` the matrix
is returned unchanged and the warning branch is taken; and the PCA step
of `load_encodings` is extensionally identical to the PCA step of
`load_brain_data`. -/
theorem C6_theorem (pca : ℕ → List (List ℚ) → List (List ℚ)) (k D : ℕ)
    (X : List (List ℚ)) (hD : matWidth X = D)
    (hpca : ∀ row ∈ pca k X, row.length = k) :
    (k ≤ D → ∀ row ∈ (encodingsProject pca (some k) X).1, row.length = k) ∧
    (D < k → encodingsProject pca (some k) X = (X, true)) ∧
    (∀ p Y, encodingsProject pca p Y = brainProject pca p Y) ∧
    (k ≤ D → ∀ row ∈ load_brain_data pca X (some k), row.length = k) ∧
    (D < k → load_brain_data pca X (some k) = X) ∧
    (k ≤ D → ∀ row ∈ load_encodings pca [X] (some k), row.length = k) ∧
    (D < k → load_encodings pca [X] (some k) = X) := by
  subst hD
  have hproj_le : k ≤ matWidth X → encodingsProject pca (some k) X = (pca k X, false) := by
    intro hk
    show (if matWidth X < k then (X, true) else (pca k X, false)) = _
    rw [if_neg (not_lt.mpr hk)]
  have hproj_gt : matWidth X < k → encodingsProject pca (some k) X = (X, true) := by
    intro hk
    show (if matWidth X < k then (X, true) else (pca k X, false)) = _
    rw [if_pos hk]
  have henc : ∀ p Y, encodingsProject pca p Y = brainProject pca p Y := fun p Y => rfl
  have hle : load_encodings pca [X] (some k) = (encodingsProject pca (some k) X).1 := rfl
  have hlb : load_brain_data pca X (some k) = (brainProject pca (some k) X).1 := rfl
  refine ⟨?_, hproj_gt, henc, ?_, ?_, ?_, ?_⟩
  · intro hk row hrow
    rw [hproj_le hk] at hrow
    exact hpca row hrow
  · intro hk row hrow
    rw [hlb, ← henc, hproj_le hk] at hrow
    exact hpca row hrow
  · intro hk
    rw [hlb, ← henc, hproj_gt hk]
  · intro hk row hrow
    rw [hle, hproj_le hk] at hrow
    exact hpca row hrow
  · intro hk
    rw [hle, hproj_gt hk]

theorem C6_witness :
    ([(0 : ℚ), 0] : List ℚ).length = 2 ∧
    encodingsProject (fun j X => X.map (fun _row => List.replicate j (0 : ℚ)))
      (some 4) [[1, 2, 3]] = ([[1, 2, 3]], true) :=
  ⟨(C6_theorem (fun j X => X.map (fun _row => List.replicate j (0 : ℚ))) 2 3
      [[1, 2, 3]] (by decide) (by decide)).2.2.2.2.2.1 (by decide) [0, 0] (by decide),
   (C6_theorem (fun j X => X.map (fun _row => List.replicate j (0 : ℚ))) 4 3
      [[1, 2, 3]] (by decide) (by decide)).2.1 (by decide)⟩

theorem zipWith_append_rows (w d2 : ℕ) :
    ∀ (acc m : List (List ℚ)),
      (∀ a ∈ acc, a.length = w) → (∀ b ∈ m, b.length = d2) →
      ∀ row ∈ List.zipWith (fun a b => a ++ b) acc m, row.length = w + d2
  | [], _, _, _, row, hrow => by simp at hrow
  | _ :: _, [], _, _, row, hrow => by simp at hrow
  | a :: acc, b :: m, ha, hb, row, hrow => by
    rw [List.zipWith_cons_cons] at hrow
    rcases List.mem_cons.mp hrow with rfl | hrow
    · rw [List.length_append, ha a (List.mem_cons_self _ _),
        hb b (List.mem_cons_self _ _)]
    · exact zipWith_append_rows w d2 acc m
        (fun x hx => ha x (List.mem_cons_of_mem _ hx))
        (fun x hx => hb x (List.mem_cons_of_mem _ hx)) row hrow

theorem concatFold_shape (r : ℕ) (ms : List (List (List ℚ))) (Ds : List ℕ)
    (h : List.Forall₂ (fun m D => m.length = r ∧ ∀ row ∈ m, row.length = D) ms Ds) :
    ∀ (acc : List (List ℚ)) (w : ℕ), acc.length = r → (∀ row ∈ acc, row.length = w) →
      ((ms.foldl (fun acc m2 => List.zipWith (fun a b => a ++ b) acc m2) acc).length = r ∧
       ∀ row ∈ ms.foldl (fun acc m2 => List.zipWith (fun a b => a ++ b) acc m2) acc,
         row.length = w + Ds.sum) := by
  induction h with
  | nil =>
    intro acc w hacc hrows
    simpa using ⟨hacc, hrows⟩
  | @cons m D ms2 Ds2 hmD hms ih =>
    intro acc w hacc hrows
    rw [List.foldl_cons]
    have hzlen : (List.zipWith (fun a b => a ++ b) acc m).length = r := by
      rw [List.length_zipWith, hacc, hmD.1, Nat.min_self]
    have hzrows := zipWith_append_rows w D acc m hrows hmD.2
    obtain ⟨hl, hr⟩ := ih _ _ hzlen hzrows
    refine ⟨hl, fun row hrow => ?_⟩
    rw [hr row hrow, List.sum_cons]
    omega

theorem concatAxis1_shape (r : ℕ) (ms : List (List (List ℚ))) (Ds : List ℕ)
    (hne : ms ≠ [])
    (h : List.Forall₂ (fun m D => m.length = r ∧ ∀ row ∈ m, row.length = D) ms Ds) :
    (concatAxis1 ms).length = r ∧ ∀ row ∈ concatAxis1 ms, row.length = Ds.sum := by
  cases h with
  | nil => exact absurd rfl hne
  | cons hmD hms =>
    unfold concatAxis1
    obtain ⟨hl, hr⟩ := concatFold_shape r _ _ hms _ _ hmD.1 hmD.2
    refine ⟨hl, fun row hrow => ?_⟩
    rw [hr row hrow, List.sum_cons]

/-- C7: loading `N ≥ 1` encoding files whose loaded (and optionally
PCA-projected) matrices have equal row counts `r` and widths
`D₁, …, D_N` returns a single matrix of `r` rows whose width is
`D₁ + ⋯ + D_N`. -/
theorem C7_theorem (pca : ℕ → List (List ℚ) → List (List ℚ))
    (project : Option ℕ) (files : List (List (List ℚ))) (r : ℕ) (Ds : List ℕ)
    (hne : files ≠ [])
    (hshape : List.Forall₂ (fun X D =>
      (encodingsProject pca project X).1.length = r ∧
      ∀ row ∈ (encodingsProject pca project X).1, row.length = D) files Ds) :
    (load_encodings pca files project).length = r ∧
    ∀ row ∈ load_encodings pca files project, row.length = Ds.sum := by
  unfold load_encodings
  apply concatAxis1_shape r _ Ds
  · simp only [ne_eq, List.map_eq_nil_iff]
    exact hne
  · rw [List.forall₂_map_left_iff]
    exact hshape

theorem C7_witness :
    (load_encodings (fun _j X => X) [[[1, 2]], [[3]]] none).length = 1 ∧
    ([(1 : ℚ), 2, 3] : List ℚ).length = ([2, 1] : List ℕ).sum :=
  ⟨(C7_theorem (fun _j X => X) none [[[1, 2]], [[3]]] 1 [2, 1] (by decide)
      (List.Forall₂.cons (by decide) (List.Forall₂.cons (by decide) List.Forall₂.nil))).1,
   (C7_theorem (fun _j X => X) none [[[1, 2]], [[3]]] 1 [2, 1] (by decide)
      (List.Forall₂.cons (by decide) (List.Forall₂.cons (by decide) List.Forall₂.nil))).2
     [1, 2, 3] (by decide)⟩

/-! Claim theorem about the filename grammar (C8). -/

theorem stripLit_append : ∀ lit rest : List Char, stripLit lit (lit ++ rest) = some rest
  | [], rest => rfl
  | c :: cs, rest => by
    show (if c = c then stripLit cs (cs ++ rest) else none) = some rest
    rw [if_pos rfl]
    exact stripLit_append cs rest

theorem takeWhile_append_stop (p : Char → Bool) :
    ∀ (xs : List Char) (c : Char) (ys : List Char),
      (∀ a ∈ xs, p a = true) → p c = false →
      (xs ++ c :: ys).takeWhile p = xs ∧ (xs ++ c :: ys).dropWhile p = c :: ys
  | [], c, ys, _, hc => by
    rw [List.nil_append, List.takeWhile_cons, List.dropWhile_cons, hc]
    exact ⟨rfl, rfl⟩
  | x :: xs, c, ys, hxs, hc => by
    have hx : p x = true := hxs x (List.mem_cons_self _ _)
    have ih := takeWhile_append_stop p xs c ys
      (fun a ha => hxs a (List.mem_cons_of_mem _ ha)) hc
    rw [List.cons_append, List.takeWhile_cons, List.dropWhile_cons, hx]
    simp only [if_true]
    exact ⟨by rw [ih.1], ih.2⟩

theorem peelRun_spec (p : Char → Bool) (xs : List Char) (c : Char) (ys : List Char)
    (hne : xs ≠ []) (hxs : ∀ a ∈ xs, p a = true) (hc : p c = false) :
    peelRun p (xs ++ c :: ys) = some (xs, c :: ys) := by
  obtain ⟨ht, hd⟩ := takeWhile_append_stop p xs c ys hxs hc
  have hni : xs.isEmpty = false := by
    cases xs with
    | nil => exact absurd rfl hne
    | cons a t => rfl
  show (if ((xs ++ c :: ys).takeWhile p).isEmpty then none
    else some ((xs ++ c :: ys).takeWhile p, (xs ++ c :: ys).dropWhile p)) = _
  rw [ht, hd, hni]
  rfl

theorem peelChar_cons (c : Char) (l : List Char) : peelChar c (c :: l) = some l := by
  show (if c = c then some l else none) = some l
  rw [if_pos rfl]

theorem decoderParse_concat (sfx p m r s subj : String)
    (hm : m.data ≠ [] ∧ ∀ c ∈ m.data, isWordChar c = true)
    (hr : r.data ≠ [] ∧ ∀ c ∈ r.data, c.isDigit = true)
    (hs : s.data ≠ [] ∧ ∀ c ∈ s.data, c.isDigit = true)
    (hsubj : subj.data ≠ [] ∧ ∀ c ∈ subj.data, isWordChar c = true) :
    decoderParse sfx (p ++ dotS ++ m ++ runS ++ r ++ dashS ++ s ++ dashS ++ subj ++ sfx)
      = some (m, r, s, subj) := by
  have e0 : (p ++ dotS ++ m ++ runS ++ r ++ dashS ++ s ++ dashS ++ subj ++ sfx).data.reverse
      = sfx.data.reverse ++ (subj.data.reverse ++ '-' :: (s.data.reverse ++ '-' ::
          (r.data.reverse ++ 'n' :: 'u' :: 'r' :: '-' ::
            (m.data.reverse ++ '.' :: p.data.reverse)))) := by
    simp [dotS, runS, dashS]
  have e1 : stripLit sfx.data.reverse
      ((p ++ dotS ++ m ++ runS ++ r ++ dashS ++ s ++ dashS ++ subj ++ sfx).data.reverse)
      = some (subj.data.reverse ++ '-' :: (s.data.reverse ++ '-' ::
          (r.data.reverse ++ 'n' :: 'u' :: 'r' :: '-' ::
            (m.data.reverse ++ '.' :: p.data.reverse)))) := by
    rw [e0]
    exact stripLit_append _ _
  have e2 : peelRun isWordChar (subj.data.reverse ++ '-' :: (s.data.reverse ++ '-' ::
        (r.data.reverse ++ 'n' :: 'u' :: 'r' :: '-' ::
          (m.data.reverse ++ '.' :: p.data.reverse))))
      = some (subj.data.reverse, '-' :: (s.data.reverse ++ '-' ::
          (r.data.reverse ++ 'n' :: 'u' :: 'r' :: '-' ::
            (m.data.reverse ++ '.' :: p.data.reverse)))) :=
    peelRun_spec _ _ _ _ (by simpa using hsubj.1)
      (fun a ha => hsubj.2 a (List.mem_reverse.mp ha)) (by decide)
  have e3 : peelRun Char.isDigit (s.data.reverse ++ '-' ::
        (r.data.reverse ++ 'n' :: 'u' :: 'r' :: '-' ::
          (m.data.reverse ++ '.' :: p.data.reverse)))
      = some (s.data.reverse, '-' :: (r.data.reverse ++ 'n' :: 'u' :: 'r' :: '-' ::
          (m.data.reverse ++ '.' :: p.data.reverse))) :=
    peelRun_spec _ _ _ _ (by simpa using hs.1)
      (fun a ha => hs.2 a (List.mem_reverse.mp ha)) (by decide)
  have e4 : peelRun Char.isDigit (r.data.reverse ++ 'n' :: 'u' :: 'r' :: '-' ::
        (m.data.reverse ++ '.' :: p.data.reverse))
      = some (r.data.reverse, 'n' :: 'u' :: 'r' :: '-' ::
          (m.data.reverse ++ '.' :: p.data.reverse)) :=
    peelRun_spec _ _ _ _ (by simpa using hr.1)
      (fun a ha => hr.2 a (List.mem_reverse.mp ha)) (by decide)
  have e5 : stripLit ['n', 'u', 'r', '-'] ('n' :: 'u' :: 'r' :: '-' ::
        (m.data.reverse ++ '.' :: p.data.reverse))
      = some (m.data.reverse ++ '.' :: p.data.reverse) :=
    stripLit_append ['n', 'u', 'r', '-'] _
  have e6 : peelRun isWordChar (m.data.reverse ++ '.' :: p.data.reverse)
      = some (m.data.reverse, '.' :: p.data.reverse) :=
    peelRun_spec _ _ _ _ (by simpa using hm.1)
      (fun a ha => hm.2 a (List.mem_reverse.mp ha)) (by decide)
  unfold decoderParse
  simp only [e1, e2, e3, e4, e5, e6, peelChar_cons, Option.bind_eq_bind,
    Option.some_bind, List.reverse_reverse]
  rfl

/-- C8: a CSV file whose name matches the fixed pattern
`.MODEL-runR-S-SUBJECT.csv` (arbitrary prefix, `MODEL` a nonempty word,
`R` and `S` nonempty digit strings, `SUBJECT` nonempty word characters)
is keyed in the table of `load_decoding_perfs` by the tuple
`(MODEL, int(R), int(S), SUBJECT)`: the regex extracts exactly these
four groups, and each of the file's rows appears under that key. -/
theorem C8_theorem (p m r s subj : String) (rows : List (ℚ × ℚ))
    (hm : m.data ≠ [] ∧ ∀ c ∈ m.data, isWordChar c = true)
    (hr : r.data ≠ [] ∧ ∀ c ∈ r.data, c.isDigit = true)
    (hs : s.data ≠ [] ∧ ∀ c ∈ s.data, c.isDigit = true)
    (hsubj : subj.data ≠ [] ∧ ∀ c ∈ subj.data, isWordChar c = true) :
    decoderParse csvSfx
      (p ++ dotS ++ m ++ runS ++ r ++ dashS ++ s ++ dashS ++ subj ++ csvSfx)
      = some (m, r, s, subj) ∧
    load_decoding_perfs
      [((p ++ dotS ++ m ++ runS ++ r ++ dashS ++ s ++ dashS ++ subj ++ csvSfx), rows)]
      = .ok (rows.map (fun row => ((m, strToNat r, strToNat s, subj), row))) := by
  have hparse := decoderParse_concat csvSfx p m r s subj hm hr hs hsubj
  refine ⟨hparse, ?_⟩
  unfold load_decoding_perfs
  have hcollect : collectResults csvSfx
      [((p ++ dotS ++ m ++ runS ++ r ++ dashS ++ s ++ dashS ++ subj ++ csvSfx), rows)] []
      = .ok [((m, strToNat r, strToNat s, subj), rows)] := by
    unfold collectResults
    rw [hparse]
    rfl
  rw [hcollect]
  show Except.ok (([((m, strToNat r, strToNat s, subj), rows)] :
      List (DecoderKey × List (ℚ × ℚ))).flatMap
        (fun kv => kv.2.map (fun row => (kv.1, row))))
    = Except.ok (rows.map (fun row => ((m, strToNat r, strToNat s, subj), row)))
  simp

theorem C8_witness :
    decoderParse csvSfx ((⟨['x']⟩ : String) ++ dotS ++ (⟨['m']⟩ : String) ++ runS
        ++ (⟨['1', '2']⟩ : String) ++ dashS ++ (⟨['3']⟩ : String) ++ dashS
        ++ (⟨['s', '8']⟩ : String) ++ csvSfx)
      = some (⟨['m']⟩, ⟨['1', '2']⟩, ⟨['3']⟩, ⟨['s', '8']⟩) ∧
    load_decoding_perfs
      [((⟨['x']⟩ : String) ++ dotS ++ (⟨['m']⟩ : String) ++ runS
        ++ (⟨['1', '2']⟩ : String) ++ dashS ++ (⟨['3']⟩ : String) ++ dashS
        ++ (⟨['s', '8']⟩ : String) ++ csvSfx, [((1 : ℚ), (2 : ℚ))])]
      = .ok ([((1 : ℚ), (2 : ℚ))].map
          (fun row => (((⟨['m']⟩ : String), strToNat ⟨['1', '2']⟩, strToNat ⟨['3']⟩,
            (⟨['s', '8']⟩ : String)), row))) :=
  C8_theorem ⟨['x']⟩ ⟨['m']⟩ ⟨['1', '2']⟩ ⟨['3']⟩ ⟨['s', '8']⟩ [((1 : ℚ), 2)]
    (by decide) (by decide) (by decide) (by decide)

end NnDecoding
